import Mathlib

/-!
Verification of the inline path-autocompletion engine of
`src/tui/dialogs/new_session/path_input.rs`.

Rust strings are modelled as lists of Unicode scalar values (`Str`); byte
offsets into their UTF-8 encoding are computed with `Char.utf8Size`.  Byte
slicing, which panics in Rust when an index is not a character boundary, is
modelled by `Option`-valued functions (`none` = panic).  The filesystem
(`read_dir`, `home_dir`) is a parameter of the recomputation function.
-/

/-- Rust `String` / `&str`, as its sequence of characters. -/
abbrev Str := List Char

/-- Byte length of the UTF-8 encoding of a string (Rust `str::len`). -/
def utf8Len (s : Str) : Nat := (s.map Char.utf8Size).sum

/-- Models `char_to_byte_idx` from path_input.rs: the byte index of the
`char_idx`-th character, or the total byte length when `char_idx` is at or
past the end (`char_indices().nth(..).map(..).unwrap_or(value.len())`). -/
def char_to_byte_idx (value : Str) (char_idx : Nat) : Nat :=
  utf8Len (value.take char_idx)

/-- Rust byte slice `&s[..b]`: `some` iff `b` lands on a character boundary
(otherwise Rust panics). -/
def takeBytes : Str → Nat → Option Str
  | _, 0 => some []
  | [], _ + 1 => none
  | c :: s, b + 1 =>
    if c.utf8Size ≤ b + 1 then (takeBytes s (b + 1 - c.utf8Size)).map (c :: ·) else none

/-- Rust byte slice `&s[b..]`: `some` iff `b` lands on a character boundary. -/
def dropBytes : Str → Nat → Option Str
  | s, 0 => some s
  | [], _ + 1 => none
  | c :: s, b + 1 =>
    if c.utf8Size ≤ b + 1 then dropBytes s (b + 1 - c.utf8Size) else none

/-- Rust byte slice `&s[a..b]` (panics unless `a ≤ b` and both are
character boundaries). -/
def sliceBytes (s : Str) (a b : Nat) : Option Str :=
  if a ≤ b then (dropBytes s a).bind (fun t => takeBytes t (b - a)) else none

/-- Rust `str::starts_with(&str)`.  Byte-wise prefix of the UTF-8 encodings,
which for well-formed strings coincides with character-wise prefix because
UTF-8 is a prefix-free code. -/
def isPfxOf : Str → Str → Bool
  | [], _ => true
  | _ :: _, [] => false
  | a :: p, b :: s => a = b && isPfxOf p s

/-- Rust `str::rfind(char)` as a character index (index of the last
occurrence). -/
def rfindCharIdx : Str → Char → Option Nat
  | [], _ => none
  | a :: s, c =>
    match rfindCharIdx s c with
    | some i => some (i + 1)
    | none => if a = c then some 0 else none

/-- Rust `str::rfind(char)` (which returns the byte index of the last
occurrence). -/
def rfindByte (s : Str) (c : Char) : Option Nat :=
  (rfindCharIdx s c).map (fun i => utf8Len (s.take i))

/-- Rust `Ord` on `String`: lexicographic (byte-wise on the UTF-8 encoding,
equivalently code-point-wise). -/
def strLe : Str → Str → Bool
  | [], _ => true
  | _ :: _, [] => false
  | a :: s, b :: t =>
    if a.val < b.val then true
    else if b.val < a.val then false
    else strLe s t

/-- One insertion step of an insertion sort.  Rust's `slice::sort` is a
stable sort under `Ord`; since string order is antisymmetric, every sort
produces the same list, so insertion sort models it faithfully. -/
def insertSorted (x : Str) : List Str → List Str
  | [] => [x]
  | y :: ys => if strLe x y then x :: y :: ys else y :: insertSorted x ys

/-- Models `matches.sort()` from path_input.rs. -/
def sortStrs (l : List Str) : List Str := l.foldr insertSorted []

/-- The inner `while !value.starts_with(&prefix) { prefix.pop() }` loop of
`longest_common_prefix` in path_input.rs: shorten the running prefix from
the back until it is a prefix of `value` (the empty string always is, which
also covers the loop's `pop` returning `None` and breaking). -/
def shrinkToPfx (value p : Str) : Str :=
  if isPfxOf p value then p else shrinkToPfx value p.dropLast
termination_by p.length
decreasing_by
  have hne : p ≠ [] := by
    intro hnil
    subst hnil
    exact absurd rfl (by assumption)
  rw [List.length_dropLast]
  have : 0 < p.length := List.length_pos.mpr hne
  omega

/-- The `for value in &values[1..]` fold of `longest_common_prefix`.  The
source's early `break` when the prefix becomes empty is a pure
optimization: the empty string is shrunk to itself by every later step. -/
def lcpFold (p : Str) : List Str → Str
  | [] => p
  | v :: rest => lcpFold (shrinkToPfx v p) rest

/-- Models `longest_common_prefix` from path_input.rs. -/
def longest_common_prefix (values : List Str) : Str :=
  match values with
  | [] => []
  | v :: rest => lcpFold v rest

/-- Rust `str::strip_prefix(&str)`. -/
def stripPfx (p s : Str) : Option Str :=
  if isPfxOf p s then some (s.drop p.length) else none

/-- Rust `str::trim_end_matches('/')`: removes every trailing `/`. -/
def trim_end_slashes (s : Str) : Str :=
  (s.reverse.dropWhile (fun c => c = '/')).reverse

/-- Unix `PathBuf::push` / `Path::join`: an absolute right operand replaces
the left; otherwise a separator is inserted unless one is already there. -/
def rust_path_join (base addition : Str) : Str :=
  if addition.head? = some '/' then addition
  else if base = [] then addition
  else if base.getLast? = some '/' then base ++ addition
  else base ++ '/' :: addition

/-- Models `path_completion_base` from path_input.rs.  `home` is the result
of `dirs::home_dir()` (`none` when the home directory cannot be
determined); paths are kept as the strings Rust's `PathBuf` wraps. -/
def path_completion_base (home : Option Str) (parent_pfx : Str) : Option Str :=
  if parent_pfx = [] then some ['.']
  else
    let trimmed := trim_end_slashes parent_pfx
    if trimmed = [] then some ['/']
    else if trimmed = ['~'] then home
    else
      match stripPfx ['~', '/'] trimmed with
      | some stripped => home.map (fun h => rust_path_join h stripped)
      | none => some trimmed

/-- A directory entry as seen by the completion scan: `name` is
`file_name().to_str()` (`none` when the name is not representable), and
`is_dir` is `entry.path().is_dir()`. -/
structure DirEntry where
  name : Option Str
  is_dir : Bool
deriving DecidableEq

/-- The filesystem facts the recompute step consumes: the home directory
and directory enumeration.  `read_dir` returns `none` when the directory
cannot be read; entries whose per-entry read failed (skipped by the
source's `entries.flatten()`) are simply absent from the list. -/
structure Fs where
  home : Option Str
  read_dir : Str → Option (List DirEntry)

/-- The candidate-collection loop of `recompute_path_ghost` (lines
193-213): keep directories whose representable name starts with
`current_seg`, skipping hidden names unless the segment itself starts with
a dot. -/
def scan_matches (entries : List DirEntry) (current_seg : Str) : List Str :=
  let include_hidden := current_seg.head? = some '.'
  entries.filterMap (fun e =>
    if e.is_dir = true then
      match e.name with
      | none => none
      | some name =>
        if ¬ include_hidden ∧ name.head? = some '.' then none
        else if isPfxOf current_seg name then some name else none
    else none)

/-- Models the struct `PathGhostCompletion` from path_input.rs. -/
structure PathGhostCompletion where
  input_snapshot : Str
  cursor_snapshot : Nat
  ghost_text : Str
  candidates : List Str
deriving DecidableEq

/-- The ghost-text computation of `recompute_path_ghost` (lines 220-234),
starting from the sorted match list.  `none` models a slicing panic (the
byte-index slices `&matches[0][current_segment.len()..]` and
`&common_prefix[current_segment.len()..]`, and the `matches[0]` index
itself). -/
def ghost_text_of? (ms : List Str) (current_seg : Str) : Option Str :=
  if ms.length = 1 then
    match ms.head? with
    | none => none
    | some first => (dropBytes first (utf8Len current_seg)).map (fun r => r ++ ['/'])
  else
    let common_pfx := longest_common_prefix ms
    if utf8Len current_seg < utf8Len common_pfx then
      dropBytes common_pfx (utf8Len current_seg)
    else
      match ms.head? with
      | none => none
      | some first => (dropBytes first (utf8Len current_seg)).map (fun r => r ++ ['/'])

/-- Lines 215-238 of `recompute_path_ghost`: empty-candidate bailout, sort,
ghost-text computation, empty-ghost bailout.  Outer `none` = panic; inner
value = the new `self.path_ghost` content (`none` = no ghost). -/
def ghost_outcome? (ms : List Str) (current_seg : Str) : Option (Option Str) :=
  if ms = [] then some none
  else
    match ghost_text_of? (sortStrs ms) current_seg with
    | none => none
    | some ghost_text =>
      if ghost_text = [] then some none else some (some ghost_text)

/-- Models `recompute_path_ghost` from path_input.rs as the value it stores
in `self.path_ghost`.  Outer `none` = a string-slicing panic (proved
impossible below); inner `none` = no ghost. -/
def compute_path_ghost? (fs : Fs) (value : Str) (cursor : Nat) :
    Option (Option PathGhostCompletion) :=
  let char_len := value.length
  let cursor_char := min cursor char_len
  if cursor_char < char_len then some none
  else
    let cursor_byte := char_to_byte_idx value cursor_char
    match takeBytes value cursor_byte with
    | none => none
    | some before_cursor =>
      let segment_start :=
        match rfindByte before_cursor '/' with
        | some idx => idx + 1
        | none => 0
      match takeBytes value segment_start, sliceBytes value segment_start cursor_byte with
      | some parent_pfx, some current_seg =>
        (match path_completion_base fs.home parent_pfx with
         | none => some none
         | some base_dir =>
           match fs.read_dir base_dir with
           | none => some none
           | some entries =>
             let ms := scan_matches entries current_seg
             match ghost_outcome? ms current_seg with
             | none => none
             | some none => some none
             | some (some ghost_text) =>
               some (some
                 { input_snapshot := value
                   cursor_snapshot := cursor_char
                   ghost_text := ghost_text
                   candidates := sortStrs ms }))
      | _, _ => none

/-- The `self.path_ghost` value after `recompute_path_ghost` (collapsing
the impossible panic case). -/
def compute_path_ghost (fs : Fs) (value : Str) (cursor : Nat) :
    Option PathGhostCompletion :=
  (compute_path_ghost? fs value cursor).getD none

/-- The dialog fields touched by the path-completion engine.  `cursor` is
the character-index cursor of the `tui_input::Input` (`visual_cursor()`),
`path_invalid_flash_until` the flash deadline (`Option<Instant>`, instants
as naturals). -/
structure DialogState where
  value : Str
  cursor : Nat
  path_ghost : Option PathGhostCompletion
  error_message : Option Str
  path_invalid_flash_until : Option Nat
deriving DecidableEq

/-- Models `recompute_path_ghost` acting on the dialog state: it only
replaces `self.path_ghost`. -/
def recompute_path_ghost (fs : Fs) (s : DialogState) : DialogState :=
  { s with path_ghost := compute_path_ghost fs s.value s.cursor }

/-- Models `set_path_value_with_cursor`: replace the input value and step
the cursor to `min cursor_char_idx total_chars` (a fresh `Input` starts at
the end and is stepped left `total - target` times). -/
def set_path_value_with_cursor (s : DialogState) (value : Str) (cursor_char_idx : Nat) :
    DialogState :=
  { s with value := value, cursor := min cursor_char_idx value.length }

/-- Models `accept_path_ghost` from path_input.rs: `take()` the pending
ghost, check the staleness snapshot, then append, reposition, clear the
error indicators and recompute. -/
def accept_path_ghost (fs : Fs) (s : DialogState) : Bool × DialogState :=
  match s.path_ghost with
  | none => (false, s)
  | some ghost =>
    let s1 : DialogState := { s with path_ghost := none }
    let value := s1.value
    let cursor_char := min s1.cursor value.length
    if ghost.input_snapshot ≠ value ∨ ghost.cursor_snapshot ≠ cursor_char then
      (false, s1)
    else
      let new_value := value ++ ghost.ghost_text
      let new_cursor := new_value.length
      let s2 := set_path_value_with_cursor s1 new_value new_cursor
      let s3 : DialogState := { s2 with error_message := none, path_invalid_flash_until := none }
      (true, recompute_path_ghost fs s3)

/-- One of the `while cursor > 0 && p(chars[cursor - 1]) { cursor -= 1 }`
loops of `move_path_cursor_to_previous_segment`. -/
def skip_back_while (chars : Str) (p : Char → Bool) : Nat → Nat
  | 0 => 0
  | c + 1 =>
    match chars.get? c with
    | some ch => if p ch then skip_back_while chars p c else c + 1
    | none => c + 1

/-- Models `move_path_cursor_to_previous_segment` as the cursor position it
establishes: clamp, then skip a run of `/` backwards, then a run of
non-`/` (the final `move_path_cursor_to` just steps the cursor to the
computed, already-clamped index). -/
def move_path_cursor_to_previous_segment (value : Str) (cursor : Nat) : Nat :=
  let cursor0 := min cursor value.length
  if cursor0 = 0 then cursor0
  else
    let c1 := skip_back_while value (fun ch => ch = '/') cursor0
    skip_back_while value (fun ch => ¬ ch = '/') c1

/-- Modelled from the spec (§4.1 rule 2 reads "Trim one trailing `/`"):
trimming that removes trailing slashes one at a time, written
independently of `trim_end_slashes`. -/
def spec_trim_trailing (s : Str) : Str :=
  if s.getLast? = some '/' then spec_trim_trailing s.dropLast else s
termination_by s.length
decreasing_by
  have hne : s ≠ [] := by
    intro hnil
    subst hnil
    simp at *
  rw [List.length_dropLast]
  have : 0 < s.length := List.length_pos.mpr hne
  omega

/-- Modelled from the spec: the PathBaseResolver rules of §4.1 in order,
with rule 2 amended to trim **all** trailing `/` characters (the
counterexample below shows "one" is not what the code does). -/
def spec_base_resolve (home : Option Str) (parent_pfx : Str) : Option Str :=
  if parent_pfx = [] then some ['.']
  else
    let trimmed := spec_trim_trailing parent_pfx
    if trimmed = [] then some ['/']
    else if trimmed = ['~'] then home
    else if isPfxOf ['~', '/'] trimmed then
      home.map (fun h => rust_path_join h (trimmed.drop 2))
    else some trimmed

/-- Modelled from the spec, verbatim reading of claim C4: trim at most ONE
trailing `/`, then apply the rules in order. -/
def claim_trim_one (s : Str) : Str :=
  if s.getLast? = some '/' then s.dropLast else s

/-- The claim-C4 rule chain with its literal "trim one trailing `/`". -/
def claimC4_base (home : Option Str) (parent_pfx : Str) : Option Str :=
  if parent_pfx = [] then some ['.']
  else
    let trimmed := claim_trim_one parent_pfx
    if trimmed = [] then some ['/']
    else if trimmed = ['~'] then home
    else if isPfxOf ['~', '/'] trimmed then
      home.map (fun h => rust_path_join h (trimmed.drop 2))
    else some trimmed

/-- Unix path equivalence as Rust's `Path::eq` sees it: same absoluteness
and the same non-empty components (duplicate and trailing separators are
ignored by `Components`). -/
def path_equiv (a b : Str) : Bool :=
  (a.head? = some '/') = (b.head? = some '/') ∧
    (a.splitOn '/').filter (fun c => c ≠ []) = (b.splitOn '/').filter (fun c => c ≠ [])

/-- Character-level reading of the three-tier ghost rule of the spec
(§4.3): single match → remainder plus `/`; ambiguous common-prefix
extension → the extension alone; otherwise the first match's remainder
plus `/`. -/
def spec_three_tier (ms : List Str) (current_seg : Str) : Str :=
  if ms.length = 1 then (ms.headD []).drop current_seg.length ++ ['/']
  else if current_seg.length < ( longest_common_prefix ms).length then
    ( longest_common_prefix ms).drop current_seg.length
  else (ms.headD []).drop current_seg.length ++ ['/']

/-- Character index where the segment being typed starts: one past the
last `/`, or 0. -/
def segStartChar (value : Str) : Nat :=
  match rfindCharIdx value '/' with
  | some i => i + 1
  | none => 0

/-- The value `recompute_path_ghost` stores when the cursor sits at the end
of the input, written with character-level slicing. -/
def compute_at_end_form (fs : Fs) (value : Str) : Option (Option PathGhostCompletion) :=
  match path_completion_base fs.home (value.take (segStartChar value)) with
  | none => some none
  | some base_dir =>
    match fs.read_dir base_dir with
    | none => some none
    | some entries =>
      match ghost_outcome? (scan_matches entries (value.drop (segStartChar value)))
          (value.drop (segStartChar value)) with
      | none => none
      | some none => some none
      | some (some g) =>
        some (some
          { input_snapshot := value
            cursor_snapshot := value.length
            ghost_text := g
            candidates := sortStrs (scan_matches entries (value.drop (segStartChar value))) })

/-- Structural companion of `shrinkToPfx`: the character-wise common
prefix of two strings (used to evaluate `longest_common_prefix` on
concrete inputs, since `shrinkToPfx` is defined by well-founded
recursion). -/
def commonPfx2 : Str → Str → Str
  | a :: p, b :: v => if a = b then a :: commonPfx2 p v else []
  | _, _ => []

theorem utf8Len_nil : utf8Len [] = 0 := rfl

theorem utf8Len_cons (c : Char) (s : Str) :
    utf8Len (c :: s) = c.utf8Size + utf8Len s := by
  simp [utf8Len]

theorem utf8Len_append (s t : Str) :
    utf8Len (s ++ t) = utf8Len s + utf8Len t := by
  induction s with
  | nil => simp [utf8Len]
  | cons c s ih => simp [utf8Len_cons, ih]; omega

theorem utf8Len_eq_zero {s : Str} : utf8Len s = 0 ↔ s = [] := by
  cases s with
  | nil => simp [utf8Len_nil]
  | cons c s =>
    simp only [utf8Len_cons]
    have := Char.utf8Size_pos c
    constructor
    · intro h; omega
    · intro h; cases h

theorem takeBytes_utf8Len_take (s : Str) (k : Nat) :
    takeBytes s (utf8Len (s.take k)) = some (s.take k) := by
  induction s generalizing k with
  | nil => simp [takeBytes, utf8Len_nil]
  | cons c s ih =>
    cases k with
    | zero => simp [takeBytes, utf8Len_nil]
    | succ k =>
      have hpos := Char.utf8Size_pos c
      have hlen : utf8Len ((c :: s).take (k + 1)) = c.utf8Size + utf8Len (s.take k) := by
        simp [List.take, utf8Len_cons]
      obtain ⟨b, hb⟩ : ∃ b, utf8Len ((c :: s).take (k + 1)) = b + 1 := by
        refine ⟨utf8Len ((c :: s).take (k + 1)) - 1, ?_⟩
        omega
      rw [hb]
      have hle : c.utf8Size ≤ b + 1 := by omega
      have hrest : b + 1 - c.utf8Size = utf8Len (s.take k) := by omega
      simp only [takeBytes, if_pos hle, hrest, ih]
      simp [List.take]

theorem takeBytes_utf8Len (s : Str) : takeBytes s (utf8Len s) = some s := by
  have := takeBytes_utf8Len_take s s.length
  rwa [List.take_length] at this

theorem dropBytes_utf8Len_append (p t : Str) :
    dropBytes (p ++ t) (utf8Len p) = some t := by
  induction p with
  | nil => simp [dropBytes, utf8Len_nil]
  | cons c p ih =>
    have hpos := Char.utf8Size_pos c
    obtain ⟨b, hb⟩ : ∃ b, utf8Len (c :: p) = b + 1 := by
      refine ⟨utf8Len (c :: p) - 1, ?_⟩
      rw [utf8Len_cons]; omega
    rw [List.cons_append, hb]
    have hc : utf8Len (c :: p) = c.utf8Size + utf8Len p := utf8Len_cons c p
    have hle : c.utf8Size ≤ b + 1 := by omega
    have hrest : b + 1 - c.utf8Size = utf8Len p := by omega
    simp only [dropBytes, if_pos hle, hrest, ih]

theorem dropBytes_utf8Len_take (s : Str) (k : Nat) :
    dropBytes s (utf8Len (s.take k)) = some (s.drop k) := by
  have h := dropBytes_utf8Len_append (s.take k) (s.drop k)
  rwa [List.take_append_drop] at h

theorem utf8Len_take_le (s : Str) (k : Nat) :
    utf8Len (s.take k) ≤ utf8Len s := by
  conv_rhs => rw [← List.take_append_drop k s]
  rw [utf8Len_append]
  omega

theorem sliceBytes_take_utf8Len (s : Str) (j : Nat) :
    sliceBytes s (utf8Len (s.take j)) (utf8Len s) = some (s.drop j) := by
  unfold sliceBytes
  rw [if_pos (utf8Len_take_le s j), dropBytes_utf8Len_take]
  have hsplit : utf8Len s = utf8Len (s.take j) + utf8Len (s.drop j) := by
    conv_lhs => rw [← List.take_append_drop j s]
    exact utf8Len_append _ _
  have : utf8Len s - utf8Len (s.take j) = utf8Len (s.drop j) := by omega
  simp only [this, Option.bind, takeBytes_utf8Len]

theorem isPfxOf_iff (p s : Str) : isPfxOf p s = true ↔ ∃ t, s = p ++ t := by
  induction p generalizing s with
  | nil => simp [isPfxOf]
  | cons a p ih =>
    cases s with
    | nil =>
      simp only [isPfxOf]
      constructor
      · intro h; cases h
      · rintro ⟨t, ht⟩; cases ht
    | cons b s =>
      simp only [isPfxOf, Bool.and_eq_true, decide_eq_true_eq, ih]
      constructor
      · rintro ⟨rfl, t, rfl⟩; exact ⟨t, rfl⟩
      · rintro ⟨t, ht⟩
        injection ht with h1 h2
        exact ⟨h1.symm, t, h2⟩

theorem isPfxOf_refl (s : Str) : isPfxOf s s = true := by
  rw [isPfxOf_iff]; exact ⟨[], by simp⟩

theorem isPfxOf_nil (s : Str) : isPfxOf [] s = true := rfl

theorem dropBytes_of_isPfxOf {p s : Str} (h : isPfxOf p s = true) :
    dropBytes s (utf8Len p) = some (s.drop p.length) := by
  obtain ⟨t, rfl⟩ := (isPfxOf_iff p s).mp h
  rw [dropBytes_utf8Len_append]
  simp

theorem rfindCharIdx_some {s : Str} {c : Char} {i : Nat}
    (h : rfindCharIdx s c = some i) : i < s.length ∧ s.get? i = some c := by
  induction s generalizing i with
  | nil => cases h
  | cons a s ih =>
    simp only [rfindCharIdx] at h
    cases hr : rfindCharIdx s c with
    | some j =>
      rw [hr] at h
      injection h with h
      subst h
      obtain ⟨h1, h2⟩ := ih hr
      exact ⟨by simpa using Nat.succ_lt_succ h1, by simpa using h2⟩
    | none =>
      rw [hr] at h
      by_cases hac : a = c
      · rw [if_pos hac] at h
        injection h with h
        subst h
        subst hac
        exact ⟨by simp, rfl⟩
      · rw [if_neg hac] at h; cases h

theorem strLe_refl (s : Str) : strLe s s = true := by
  induction s with
  | nil => rfl
  | cons a s ih => simp [strLe, ih]

theorem mem_insertSorted {a x : Str} {l : List Str} :
    a ∈ insertSorted x l ↔ a = x ∨ a ∈ l := by
  induction l with
  | nil => simp [insertSorted]
  | cons y ys ih =>
    simp only [insertSorted]
    by_cases h : strLe x y = true
    · simp [h]
    · simp only [if_neg h, List.mem_cons, ih]
      tauto

theorem mem_sortStrs {a : Str} {l : List Str} : a ∈ sortStrs l ↔ a ∈ l := by
  induction l with
  | nil => simp [sortStrs]
  | cons x xs ih =>
    simp only [sortStrs, List.foldr] at *
    rw [mem_insertSorted, ih, List.mem_cons]

theorem sortStrs_ne_nil {l : List Str} (h : l ≠ []) : sortStrs l ≠ [] := by
  cases l with
  | nil => exact absurd rfl h
  | cons x xs =>
    intro hc
    have : x ∈ sortStrs (x :: xs) := mem_sortStrs.mpr (by simp)
    rw [hc] at this
    cases this

theorem isPfxOf_trans {a b c : Str} (h1 : isPfxOf a b = true)
    (h2 : isPfxOf b c = true) : isPfxOf a c = true := by
  rw [isPfxOf_iff] at h1 h2 ⊢
  obtain ⟨t1, rfl⟩ := h1
  obtain ⟨t2, rfl⟩ := h2
  exact ⟨t1 ++ t2, by simp⟩

theorem isPfxOf_dropLast (p : Str) : isPfxOf p.dropLast p = true := by
  cases hp : p.eq_nil_or_concat with
  | inl h => subst h; exact isPfxOf_nil []
  | inr h =>
    obtain ⟨l, a, rfl⟩ := h
    rw [List.concat_eq_append, List.dropLast_concat, isPfxOf_iff]
    exact ⟨[a], rfl⟩

theorem isPfxOf_dropLast_of_ne {q p : Str} (hq : isPfxOf q p = true)
    (hne : q ≠ p) : isPfxOf q p.dropLast = true := by
  rw [isPfxOf_iff] at hq
  obtain ⟨t, rfl⟩ := hq
  cases t with
  | nil => simp at hne
  | cons x t' =>
    rw [List.dropLast_append_of_ne_nil q (by simp), isPfxOf_iff]
    exact ⟨(x :: t').dropLast, rfl⟩

theorem shrinkToPfx_isPfx (value p : Str) :
    isPfxOf (shrinkToPfx value p) value = true := by
  induction p using shrinkToPfx.induct value with
  | case1 p h => rw [shrinkToPfx, if_pos h]; exact h
  | case2 p h ih => rw [shrinkToPfx, if_neg h]; exact ih

theorem shrinkToPfx_isPfx_self (value p : Str) :
    isPfxOf (shrinkToPfx value p) p = true := by
  induction p using shrinkToPfx.induct value with
  | case1 p h => rw [shrinkToPfx, if_pos h]; exact isPfxOf_refl p
  | case2 p h ih =>
    rw [shrinkToPfx, if_neg h]
    exact isPfxOf_trans ih (isPfxOf_dropLast p)

theorem isPfxOf_shrinkToPfx {value p q : Str} (hqp : isPfxOf q p = true)
    (hqv : isPfxOf q value = true) : isPfxOf q (shrinkToPfx value p) = true := by
  induction p using shrinkToPfx.induct value with
  | case1 p h => rw [shrinkToPfx, if_pos h]; exact hqp
  | case2 p h ih =>
    rw [shrinkToPfx, if_neg h]
    refine ih (isPfxOf_dropLast_of_ne hqp ?_)
    intro hqe
    subst hqe
    exact absurd hqv (by simp [h])

theorem lcpFold_isPfx_self (p : Str) (l : List Str) :
    isPfxOf (lcpFold p l) p = true := by
  induction l generalizing p with
  | nil => exact isPfxOf_refl p
  | cons v rest ih =>
    exact isPfxOf_trans (ih (shrinkToPfx v p)) (shrinkToPfx_isPfx_self v p)

theorem lcpFold_isPfx_mem (p : Str) (l : List Str) :
    ∀ v ∈ l, isPfxOf (lcpFold p l) v = true := by
  induction l generalizing p with
  | nil => intro v hv; cases hv
  | cons w rest ih =>
    intro v hv
    cases hv with
    | head =>
      exact isPfxOf_trans (lcpFold_isPfx_self (shrinkToPfx w p) rest)
        (shrinkToPfx_isPfx w p)
    | tail _ hv => exact ih (shrinkToPfx w p) v hv

theorem isPfxOf_lcpFold {q p : Str} {l : List Str} (hp : isPfxOf q p = true)
    (hl : ∀ v ∈ l, isPfxOf q v = true) : isPfxOf q (lcpFold p l) = true := by
  induction l generalizing p with
  | nil => exact hp
  | cons w rest ih =>
    exact ih (isPfxOf_shrinkToPfx hp (hl w (by simp)))
      (fun v hv => hl v (List.mem_cons_of_mem w hv))

theorem mem_scan_matches {entries : List DirEntry} {current_seg m : Str} :
    m ∈ scan_matches entries current_seg ↔
      ∃ e ∈ entries, e.is_dir = true ∧ e.name = some m ∧
        isPfxOf current_seg m = true ∧
        (m.head? = some '.' → current_seg.head? = some '.') := by
  unfold scan_matches
  rw [List.mem_filterMap]
  constructor
  · rintro ⟨e, he, hf⟩
    refine ⟨e, he, ?_⟩
    by_cases hd : e.is_dir = true
    · rw [if_pos hd] at hf
      cases hn : e.name with
      | none => rw [hn] at hf; cases hf
      | some name =>
        rw [hn] at hf
        dsimp only at hf
        by_cases hh : ¬ (current_seg.head? = some '.') ∧ name.head? = some '.'
        · rw [if_pos hh] at hf; cases hf
        · rw [if_neg hh] at hf
          by_cases hp : isPfxOf current_seg name = true
          · rw [if_pos hp] at hf
            injection hf with hf
            subst hf
            refine ⟨hd, rfl, hp, ?_⟩
            intro hdot
            by_contra hseg
            exact hh ⟨hseg, hdot⟩
          · rw [if_neg hp] at hf; cases hf
    · rw [if_neg hd] at hf; cases hf
  · rintro ⟨e, he, hd, hn, hp, hh⟩
    refine ⟨e, he, ?_⟩
    rw [if_pos hd, hn]
    have hcond : ¬ (¬ (current_seg.head? = some '.') ∧ m.head? = some '.') := by
      rintro ⟨hseg, hdot⟩
      exact hseg (hh hdot)
    dsimp only
    rw [if_neg hcond, if_pos hp]

theorem scan_matches_isPfx {entries : List DirEntry} {current_seg m : Str}
    (h : m ∈ scan_matches entries current_seg) : isPfxOf current_seg m = true :=
  (mem_scan_matches.mp h).choose_spec.2.2.2.1

theorem utf8Len_lt_iff_of_pfx {p s : Str} (h : isPfxOf p s = true) :
    (utf8Len p < utf8Len s ↔ p.length < s.length) := by
  obtain ⟨t, rfl⟩ := (isPfxOf_iff p s).mp h
  rw [utf8Len_append, List.length_append]
  cases t with
  | nil => simp [utf8Len_nil]
  | cons c t =>
    have h1 := Char.utf8Size_pos c
    have h2 : 0 < utf8Len (c :: t) := by rw [utf8Len_cons]; omega
    have h3 : 0 < (c :: t).length := by simp
    omega

theorem drop_length_of_pfx {p s : Str} (h : isPfxOf p s = true) :
    s.drop p.length = [] ↔ s.length ≤ p.length := by
  obtain ⟨t, rfl⟩ := (isPfxOf_iff p s).mp h
  rw [List.drop_left, List.length_append]
  constructor
  · rintro rfl; simp
  · intro hle
    have : t.length = 0 := by omega
    exact List.length_eq_zero.mp this

theorem isPfxOf_lcp {seg : Str} {ms : List Str} (hne : ms ≠ [])
    (hpfx : ∀ m ∈ ms, isPfxOf seg m = true) :
    isPfxOf seg ( longest_common_prefix ms) = true := by
  cases ms with
  | nil => exact absurd rfl hne
  | cons v rest =>
    unfold longest_common_prefix
    exact isPfxOf_lcpFold (hpfx v (by simp))
      (fun w hw => hpfx w (List.mem_cons_of_mem v hw))

theorem ghost_text_of?_eq {ms : List Str} {seg : Str} (hne : ms ≠ [])
    (hpfx : ∀ m ∈ ms, isPfxOf seg m = true) :
    ghost_text_of? ms seg = some (spec_three_tier ms seg) := by
  cases ms with
  | nil => exact absurd rfl hne
  | cons first rest =>
    have hfirst : isPfxOf seg first = true := hpfx first (by simp)
    have hdrop := dropBytes_of_isPfxOf hfirst
    by_cases hone : (first :: rest).length = 1
    · unfold ghost_text_of? spec_three_tier
      rw [if_pos hone, if_pos hone]
      simp only [List.head?, List.headD, hdrop, Option.map]
    · unfold ghost_text_of? spec_three_tier
      rw [if_neg hone, if_neg hone]
      have hlcp : isPfxOf seg ( longest_common_prefix (first :: rest)) = true :=
        isPfxOf_lcp (by simp) hpfx
      have hiff := utf8Len_lt_iff_of_pfx hlcp
      by_cases hlt : seg.length < ( longest_common_prefix (first :: rest)).length
      · rw [if_pos (hiff.mpr hlt), if_pos hlt]
        exact dropBytes_of_isPfxOf hlcp
      · rw [if_neg (fun hc => hlt (hiff.mp hc)), if_neg hlt]
        simp only [List.head?, List.headD, hdrop, Option.map]

theorem sortStrs_pfx {seg : Str} {ms : List Str}
    (hpfx : ∀ m ∈ ms, isPfxOf seg m = true) :
    ∀ m ∈ sortStrs ms, isPfxOf seg m = true :=
  fun m hm => hpfx m (mem_sortStrs.mp hm)

theorem ghost_outcome?_eq {ms : List Str} {seg : Str} (hne : ms ≠ [])
    (hpfx : ∀ m ∈ ms, isPfxOf seg m = true) :
    ghost_outcome? ms seg =
      some (if spec_three_tier (sortStrs ms) seg = [] then none
            else some (spec_three_tier (sortStrs ms) seg)) := by
  unfold ghost_outcome?
  rw [if_neg hne, ghost_text_of?_eq (sortStrs_ne_nil hne) (sortStrs_pfx hpfx)]
  dsimp only
  by_cases hsp : spec_three_tier (sortStrs ms) seg = []
  · rw [if_pos hsp, if_pos hsp]
  · rw [if_neg hsp, if_neg hsp]

theorem segStartChar_le (value : Str) : segStartChar value ≤ value.length := by
  unfold segStartChar
  cases hr : rfindCharIdx value '/' with
  | none => exact Nat.zero_le _
  | some i => exact (rfindCharIdx_some hr).1

theorem takeBytes_zero (s : Str) : takeBytes s 0 = some [] := by
  cases s <;> rfl

theorem compute_path_ghost?_at_end (fs : Fs) (value : Str) (cursor : Nat)
    (h : value.length ≤ cursor) :
    compute_path_ghost? fs value cursor = compute_at_end_form fs value := by
  unfold compute_path_ghost?
  have hmin : min cursor value.length = value.length := min_eq_right h
  simp only [hmin, lt_irrefl, if_false]
  rw [char_to_byte_idx, List.take_length, takeBytes_utf8Len]
  dsimp only
  unfold rfindByte
  cases hr : rfindCharIdx value '/' with
  | none =>
    have hseg : segStartChar value = 0 := by unfold segStartChar; rw [hr]
    have hsl : sliceBytes value 0 (utf8Len value) = some value := by
      have := sliceBytes_take_utf8Len value 0
      simpa [utf8Len_nil] using this
    simp only [Option.map_none']
    rw [takeBytes_zero, hsl]
    dsimp only
    unfold compute_at_end_form
    rw [hseg]
    simp only [List.take_zero, List.drop_zero]
  | some i =>
    obtain ⟨hi, hgi⟩ := rfindCharIdx_some hr
    have hseg : segStartChar value = i + 1 := by unfold segStartChar; rw [hr]
    have hsucc : utf8Len (value.take (i + 1)) = utf8Len (value.take i) + 1 := by
      rw [List.take_succ]
      have hge : value[i]? = some '/' := by
        rw [← List.get?_eq_getElem?]
        exact hgi
      rw [hge, utf8Len_append]
      rfl
    have htk : takeBytes value (utf8Len (value.take i) + 1) = some (value.take (i + 1)) := by
      rw [← hsucc]
      exact takeBytes_utf8Len_take value (i + 1)
    have hsl : sliceBytes value (utf8Len (value.take i) + 1) (utf8Len value) =
        some (value.drop (i + 1)) := by
      rw [← hsucc]
      exact sliceBytes_take_utf8Len value (i + 1)
    simp only [Option.map_some']
    rw [htk, hsl]
    dsimp only
    unfold compute_at_end_form
    rw [hseg]

theorem compute_path_ghost?_not_at_end (fs : Fs) (value : Str) (cursor : Nat)
    (h : cursor < value.length) :
    compute_path_ghost? fs value cursor = some none := by
  unfold compute_path_ghost?
  have hmin : min cursor value.length = cursor := min_eq_left (Nat.le_of_lt h)
  simp only [hmin, if_pos h]

theorem ghost_outcome?_nil (seg : Str) : ghost_outcome? [] seg = some none := by
  unfold ghost_outcome?
  rw [if_pos rfl]

theorem compute_at_end_form_isSome (fs : Fs) (value : Str) :
    (compute_at_end_form fs value).isSome = true := by
  unfold compute_at_end_form
  cases hb : path_completion_base fs.home (value.take (segStartChar value)) with
  | none => rfl
  | some base_dir =>
    dsimp only
    cases hrd : fs.read_dir base_dir with
    | none => rfl
    | some entries =>
      dsimp only
      by_cases hm : scan_matches entries (value.drop (segStartChar value)) = []
      · rw [hm, ghost_outcome?_nil]
        rfl
      · rw [ghost_outcome?_eq hm (fun m hmem => scan_matches_isPfx hmem)]
        by_cases ht :
            spec_three_tier
              (sortStrs (scan_matches entries (value.drop (segStartChar value))))
              (value.drop (segStartChar value)) = []
        · rw [if_pos ht]
          rfl
        · rw [if_neg ht]
          rfl

theorem compute_at_end_form_some {fs : Fs} {value : Str} {g : PathGhostCompletion}
    (h : compute_at_end_form fs value = some (some g)) :
    g.input_snapshot = value ∧ g.cursor_snapshot = value.length := by
  unfold compute_at_end_form at h
  split at h
  · cases h
  · split at h
    · cases h
    · split at h
      · cases h
      · cases h
      · injection h with h
        injection h with h
        subst h
        exact ⟨rfl, rfl⟩

theorem commonPfx2_of_pfx {p v : Str} (h : isPfxOf p v = true) :
    commonPfx2 p v = p := by
  induction p generalizing v with
  | nil => cases v <;> rfl
  | cons a p ih =>
    cases v with
    | nil => cases h
    | cons b v =>
      simp only [isPfxOf, Bool.and_eq_true, decide_eq_true_eq] at h
      obtain ⟨rfl, h⟩ := h
      simp [commonPfx2, ih h]

theorem commonPfx2_nil_right (p : Str) : commonPfx2 p [] = [] := by
  cases p <;> rfl

theorem commonPfx2_dropLast {p v : Str} (h : ¬ isPfxOf p v = true) :
    commonPfx2 p.dropLast v = commonPfx2 p v := by
  induction p generalizing v with
  | nil => exact absurd rfl h
  | cons a p ih =>
    cases v with
    | nil => rw [commonPfx2_nil_right, commonPfx2_nil_right]
    | cons b v =>
      by_cases hab : a = b
      · subst hab
        have hpv : ¬ isPfxOf p v = true := by
          intro hc
          exact h (by simp [isPfxOf, hc])
        cases p with
        | nil => exact absurd rfl hpv
        | cons c p2 =>
          have hdl : (a :: c :: p2).dropLast = a :: (c :: p2).dropLast := rfl
          rw [hdl]
          simp only [commonPfx2, if_pos rfl]
          rw [ih hpv]
      · cases p with
        | nil =>
          show commonPfx2 [] (b :: v) = commonPfx2 [a] (b :: v)
          simp only [commonPfx2, if_neg hab]
        | cons c p2 =>
          have hdl : (a :: c :: p2).dropLast = a :: (c :: p2).dropLast := rfl
          rw [hdl]
          simp only [commonPfx2, if_neg hab]

theorem shrinkToPfx_eq (value p : Str) : shrinkToPfx value p = commonPfx2 p value := by
  induction p using shrinkToPfx.induct value with
  | case1 p h =>
    rw [shrinkToPfx, if_pos h, commonPfx2_of_pfx h]
  | case2 p h ih =>
    rw [shrinkToPfx, if_neg h, ih, commonPfx2_dropLast h]

theorem insertSorted_of_le {x : Str} {l : List Str}
    (h : ∀ y ∈ l, strLe x y = true) : insertSorted x l = x :: l := by
  cases l with
  | nil => rfl
  | cons y ys =>
    unfold insertSorted
    rw [if_pos (h y (by simp))]

theorem sortStrs_of_sorted {ms : List Str}
    (h : List.Pairwise (fun a b => strLe a b = true) ms) : sortStrs ms = ms := by
  induction ms with
  | nil => rfl
  | cons x xs ih =>
    rcases List.pairwise_cons.mp h with ⟨hx, hxs⟩
    show insertSorted x (sortStrs xs) = x :: xs
    rw [ih hxs]
    exact insertSorted_of_le hx

/-- C6: `longest_common_prefix` computes, for any non-empty list, a common
prefix of all elements of which every other common prefix is itself a
prefix (hence the longest one); and the spec's four examples hold
(`lcp([]) = ""`, `lcp(["a"]) = "a"`, `lcp(["ab","ac"]) = "a"`,
`lcp(["ab","ab"]) = "ab"`). -/
theorem longest_common_prefix_correct :
    (∀ (v : Str) (rest : List Str),
        (∀ w ∈ v :: rest, isPfxOf ( longest_common_prefix (v :: rest)) w = true) ∧
        (∀ q : Str, (∀ w ∈ v :: rest, isPfxOf q w = true) →
            isPfxOf q ( longest_common_prefix (v :: rest)) = true)) ∧
    longest_common_prefix ([] : List Str) = [] ∧
    longest_common_prefix ["a".toList] = "a".toList ∧
    longest_common_prefix ["ab".toList, "ac".toList] = "a".toList ∧
    longest_common_prefix ["ab".toList, "ab".toList] = "ab".toList := by
  refine ⟨?_, rfl, ?_, ?_, ?_⟩
  · intro v rest
    constructor
    · intro w hw
      cases hw with
      | head => exact lcpFold_isPfx_self v rest
      | tail _ hw => exact lcpFold_isPfx_mem v rest w hw
    · intro q hq
      exact isPfxOf_lcpFold (hq v (by simp))
        (fun w hw => hq w (List.mem_cons_of_mem v hw))
  · simp only [ longest_common_prefix, lcpFold]
  · simp only [ longest_common_prefix, lcpFold, shrinkToPfx_eq]
    decide
  · simp only [ longest_common_prefix, lcpFold, shrinkToPfx_eq]
    decide

/-- C6 witness: the maximality part applied to the concrete list
`["ab", "ac"]` and the common prefix `"a"`. -/
theorem longest_common_prefix_correct_witness :
    isPfxOf "a".toList ( longest_common_prefix ["ab".toList, "ac".toList]) = true :=
  (longest_common_prefix_correct.1 "ab".toList ["ac".toList]).2 "a".toList (by decide)

/-- C1: for a non-empty, lexicographically sorted candidate list whose
elements all extend `current_segment`, the computed ghost follows the
three-tier rule (single match → remainder plus `/`; common prefix longer
than the segment → the extension without `/`; otherwise the first, i.e.
lexicographically smallest, match's remainder plus `/`), and an empty
resulting string produces no ghost. -/
theorem ghost_three_tier_rule (ms : List Str) (seg : Str) (hne : ms ≠ [])
    (hsorted : List.Pairwise (fun a b => strLe a b = true) ms)
    (hpfx : ∀ m ∈ ms, isPfxOf seg m = true) :
    (∀ m ∈ ms, strLe (ms.headD []) m = true) ∧
    ghost_outcome? ms seg =
      some (if spec_three_tier ms seg = [] then none
            else some (spec_three_tier ms seg)) := by
  constructor
  · cases ms with
    | nil => exact absurd rfl hne
    | cons v rest =>
      intro m hm
      cases hm with
      | head => exact strLe_refl v
      | tail _ hm => exact (List.pairwise_cons.mp hsorted).1 m hm
  · rw [ghost_outcome?_eq hne hpfx, sortStrs_of_sorted hsorted]

/-- C1 witness: candidates `["src", "srcfoo"]`, typed segment `"sr"` — the
common prefix `"src"` is strictly longer, so the ghost is `"c"` with no
trailing slash. -/
theorem ghost_three_tier_rule_witness :
    (∀ m ∈ ["src".toList, "srcfoo".toList], strLe (["src".toList, "srcfoo".toList].headD []) m = true) ∧
    ghost_outcome? ["src".toList, "srcfoo".toList] "sr".toList =
      some (if spec_three_tier ["src".toList, "srcfoo".toList] "sr".toList = [] then none
            else some (spec_three_tier ["src".toList, "srcfoo".toList] "sr".toList)) :=
  ghost_three_tier_rule ["src".toList, "srcfoo".toList] "sr".toList
    (by decide) (by decide) (by decide)

/-- C5: candidate scanning keeps precisely the directory entries with a
representable name extending `current_segment`, hidden names only when the
segment itself starts with `.`; an unreadable base directory yields the
no-ghost outcome rather than an error; and `.git` is excluded for segments
`""` and `"g"` but included for `"."`. -/
theorem scan_matches_rule :
    (∀ (entries : List DirEntry) (seg m : Str),
        m ∈ scan_matches entries seg ↔
          ∃ e ∈ entries, e.is_dir = true ∧ e.name = some m ∧
            isPfxOf seg m = true ∧
            (m.head? = some '.' → seg.head? = some '.')) ∧
    (∀ (fs : Fs) (value : Str) (cursor : Nat),
        (∀ d, fs.read_dir d = none) →
        compute_path_ghost? fs value cursor = some none) ∧
    scan_matches [{ name := some ".git".toList, is_dir := true }] [] = [] ∧
    scan_matches [{ name := some ".git".toList, is_dir := true }] "g".toList = [] ∧
    scan_matches [{ name := some ".git".toList, is_dir := true }] ".".toList =
      [".git".toList] := by
  refine ⟨fun entries seg m => mem_scan_matches, ?_, by decide, by decide, by decide⟩
  intro fs value cursor hrd
  by_cases hc : cursor < value.length
  · exact compute_path_ghost?_not_at_end fs value cursor hc
  · rw [compute_path_ghost?_at_end fs value cursor (by omega)]
    unfold compute_at_end_form
    cases hb : path_completion_base fs.home (value.take (segStartChar value)) with
    | none => rfl
    | some base_dir =>
      dsimp only
      rw [hrd base_dir]

/-- C5 witness: with a filesystem on which every directory read fails, a
recompute yields the no-ghost outcome (and no error). -/
theorem scan_matches_rule_witness :
    compute_path_ghost? { home := none, read_dir := fun _ => none } [] 0 = some none :=
  scan_matches_rule.2.1 { home := none, read_dir := fun _ => none } [] 0 (fun _ => rfl)

/-- C7: a stored ghost always snapshots the cursor at the end of the
snapshot value (completion is suffix-only), and a recompute with the
cursor strictly before the end of the value leaves the no-ghost state. -/
theorem ghost_suffix_only_invariant :
    (∀ (fs : Fs) (value : Str) (cursor : Nat) (g : PathGhostCompletion),
        compute_path_ghost fs value cursor = some g →
        g.cursor_snapshot = g.input_snapshot.length ∧ g.input_snapshot = value) ∧
    (∀ (fs : Fs) (value : Str) (cursor : Nat),
        cursor < value.length → compute_path_ghost fs value cursor = none) := by
  constructor
  · intro fs value cursor g hg
    by_cases hc : cursor < value.length
    · rw [compute_path_ghost, compute_path_ghost?_not_at_end fs value cursor hc] at hg
      cases hg
    · rw [compute_path_ghost, compute_path_ghost?_at_end fs value cursor (by omega)] at hg
      cases hf : compute_at_end_form fs value with
      | none => rw [hf] at hg; cases hg
      | some r =>
        rw [hf] at hg
        simp only [Option.getD_some] at hg
        subst hg
        obtain ⟨h1, h2⟩ := compute_at_end_form_some hf
        exact ⟨by rw [h1, h2], h1⟩
  · intro fs value cursor hc
    rw [compute_path_ghost, compute_path_ghost?_not_at_end fs value cursor hc]
    rfl

/-- C7 witness: a concrete recompute that stores a ghost, whose snapshot
cursor indeed sits at the end of the snapshot value. -/
theorem ghost_suffix_only_invariant_witness :
    ({ input_snapshot := [], cursor_snapshot := 0, ghost_text := "src/".toList,
       candidates := ["src".toList] } : PathGhostCompletion).cursor_snapshot =
      ({ input_snapshot := [], cursor_snapshot := 0, ghost_text := "src/".toList,
         candidates := ["src".toList] } : PathGhostCompletion).input_snapshot.length ∧
    ({ input_snapshot := [], cursor_snapshot := 0, ghost_text := "src/".toList,
       candidates := ["src".toList] } : PathGhostCompletion).input_snapshot = [] :=
  ghost_suffix_only_invariant.1
    { home := none, read_dir := fun _ => some [{ name := some "src".toList, is_dir := true }] }
    [] 0 _ (by decide)

/-- C8: the character/byte conversion is total (returning the byte length
at or past the end), and ghost recomputation never panics from byte
slicing: for every input value, cursor position and filesystem, every
byte-index slice lands on a character boundary, so the recompute produces
a value rather than the panic marker. -/
theorem recompute_never_panics :
    (∀ (value : Str) (idx : Nat), value.length ≤ idx →
        char_to_byte_idx value idx = utf8Len value) ∧
    (∀ (fs : Fs) (value : Str) (cursor : Nat),
        (compute_path_ghost? fs value cursor).isSome = true) := by
  constructor
  · intro value idx h
    rw [char_to_byte_idx, List.take_of_length_le h]
  · intro fs value cursor
    by_cases hc : cursor < value.length
    · rw [compute_path_ghost?_not_at_end fs value cursor hc]
      rfl
    · rw [compute_path_ghost?_at_end fs value cursor (by omega)]
      exact compute_at_end_form_isSome fs value

/-- C8 witness: the conversion at an out-of-range character index of a
multi-byte value returns the value's byte length. -/
theorem recompute_never_panics_witness :
    char_to_byte_idx "é/a".toList 7 = utf8Len "é/a".toList :=
  recompute_never_panics.1 "é/a".toList 7 (by decide)

theorem skip_back_while_spec (chars : Str) (p : Char → Bool) :
    ∀ c, c ≤ chars.length →
      skip_back_while chars p c ≤ c ∧
      (∀ m, skip_back_while chars p c ≤ m → m < c →
          ∃ ch, chars.get? m = some ch ∧ p ch = true) ∧
      (skip_back_while chars p c = 0 ∨
        ∃ ch, chars.get? (skip_back_while chars p c - 1) = some ch ∧ p ch = false) := by
  intro c
  induction c with
  | zero =>
    intro _
    exact ⟨Nat.le_refl 0, fun m h1 h2 => absurd h2 (by omega), Or.inl rfl⟩
  | succ c ih =>
    intro h
    have hlt : c < chars.length := h
    cases hget : chars.get? c with
    | none =>
      exact absurd hget (by rw [List.get?_eq_none] at hget ⊢; omega)
    | some ch =>
      by_cases hp : p ch = true
      · have heq : skip_back_while chars p (c + 1) = skip_back_while chars p c := by
          simp only [skip_back_while, hget, if_pos hp]
        obtain ⟨ih1, ih2, ih3⟩ := ih (Nat.le_of_lt hlt)
        rw [heq]
        refine ⟨Nat.le_succ_of_le ih1, ?_, ih3⟩
        intro m h1 h2
        by_cases hm : m < c
        · exact ih2 m h1 hm
        · have : m = c := by omega
          subst this
          exact ⟨ch, hget, hp⟩
      · have heq : skip_back_while chars p (c + 1) = c + 1 := by
          simp only [skip_back_while, hget, if_neg hp]
        rw [heq]
        refine ⟨Nat.le_refl _, fun m h1 h2 => absurd h2 (by omega), Or.inr ?_⟩
        refine ⟨ch, by simpa using hget, ?_⟩
        exact Bool.eq_false_iff.mpr hp

/-- C9: the jump-to-previous-segment operation moves the cursor to the
index reached by skipping backward over a maximal run of `/` characters
and then over the following maximal run of non-`/` characters (0 when no
segment remains); from the end of `"/a/bb"` successive jumps land at
character indexes 3, 1, and 0. -/
theorem previous_segment_rule :
    (∀ (value : Str) (cursor : Nat), cursor ≤ value.length →
        ∃ k, move_path_cursor_to_previous_segment value cursor ≤ k ∧ k ≤ cursor ∧
          (∀ m, k ≤ m → m < cursor → value.get? m = some '/') ∧
          (k = 0 ∨ ∃ ch, value.get? (k - 1) = some ch ∧ ch ≠ '/') ∧
          (∀ m, move_path_cursor_to_previous_segment value cursor ≤ m → m < k →
              ∃ ch, value.get? m = some ch ∧ ch ≠ '/') ∧
          (move_path_cursor_to_previous_segment value cursor = 0 ∨
            value.get? (move_path_cursor_to_previous_segment value cursor - 1) = some '/')) ∧
    move_path_cursor_to_previous_segment "/a/bb".toList 5 = 3 ∧
    move_path_cursor_to_previous_segment "/a/bb".toList 3 = 1 ∧
    move_path_cursor_to_previous_segment "/a/bb".toList 1 = 0 := by
  refine ⟨?_, by decide, by decide, by decide⟩
  intro value cursor h
  have hmin : min cursor value.length = cursor := min_eq_left h
  unfold move_path_cursor_to_previous_segment
  rw [hmin]
  by_cases h0 : cursor = 0
  · rw [if_pos h0]
    subst h0
    exact ⟨0, Nat.le_refl 0, Nat.le_refl 0,
      fun m h1 h2 => absurd h2 (by omega), Or.inl rfl,
      fun m h1 h2 => absurd h2 (by omega), Or.inl rfl⟩
  · rw [if_neg h0]
    obtain ⟨s1, s2, s3⟩ := skip_back_while_spec value (fun ch => ch = '/') cursor h
    have hc1 : skip_back_while value (fun ch => ch = '/') cursor ≤ value.length :=
      le_trans s1 h
    obtain ⟨t1, t2, t3⟩ :=
      skip_back_while_spec value (fun ch => ¬ ch = '/')
        (skip_back_while value (fun ch => ch = '/') cursor) hc1
    refine ⟨skip_back_while value (fun ch => ch = '/') cursor, t1, s1, ?_, ?_, ?_, ?_⟩
    · intro m h1 h2
      obtain ⟨ch, hg, hpch⟩ := s2 m h1 h2
      simp only [decide_eq_true_eq] at hpch
      rw [hg, hpch]
    · cases s3 with
      | inl h => exact Or.inl h
      | inr h =>
        obtain ⟨ch, hg, hpch⟩ := h
        simp only [decide_eq_false_iff_not] at hpch
        exact Or.inr ⟨ch, hg, hpch⟩
    · intro m h1 h2
      obtain ⟨ch, hg, hpch⟩ := t2 m h1 h2
      simp only [decide_eq_true_eq] at hpch
      exact ⟨ch, hg, hpch⟩
    · cases t3 with
      | inl hz => exact Or.inl hz
      | inr hz =>
        obtain ⟨ch, hg, hpch⟩ := hz
        simp only [decide_eq_false_iff_not, not_not] at hpch
        exact Or.inr (by rw [hg, hpch])

/-- C9 witness: the declarative run description applied at the end of
`"/a/bb"`. -/
theorem previous_segment_rule_witness :
    ∃ k, move_path_cursor_to_previous_segment "/a/bb".toList 5 ≤ k ∧ k ≤ 5 ∧
      (∀ m, k ≤ m → m < 5 → "/a/bb".toList.get? m = some '/') ∧
      (k = 0 ∨ ∃ ch, "/a/bb".toList.get? (k - 1) = some ch ∧ ch ≠ '/') ∧
      (∀ m, move_path_cursor_to_previous_segment "/a/bb".toList 5 ≤ m → m < k →
          ∃ ch, "/a/bb".toList.get? m = some ch ∧ ch ≠ '/') ∧
      (move_path_cursor_to_previous_segment "/a/bb".toList 5 = 0 ∨
        "/a/bb".toList.get? (move_path_cursor_to_previous_segment "/a/bb".toList 5 - 1) =
          some '/') :=
  previous_segment_rule.1 "/a/bb".toList 5 (by decide)

/-- C10 (implicit): accepting with no pending ghost reports failure and
leaves the whole dialog state untouched. -/
theorem accept_ghost_without_ghost (fs : Fs) (s : DialogState)
    (hg : s.path_ghost = none) : accept_path_ghost fs s = (false, s) := by
  unfold accept_path_ghost
  rw [hg]

/-- C10 witness: a concrete ghost-free dialog state. -/
theorem accept_ghost_without_ghost_witness :
    accept_path_ghost { home := none, read_dir := fun _ => none }
      { value := "a".toList, cursor := 1, path_ghost := none,
        error_message := some "e".toList, path_invalid_flash_until := some 7 } =
      (false,
        { value := "a".toList, cursor := 1, path_ghost := none,
          error_message := some "e".toList, path_invalid_flash_until := some 7 }) :=
  accept_ghost_without_ghost _ _ rfl

/-- C2: when the live value or the live cursor differs from the ghost's
snapshot, acceptance reports failure, leaves value and cursor (and the
error indicators) unchanged, and discards the pending ghost. -/
theorem accept_ghost_stale (fs : Fs) (s : DialogState) (g : PathGhostCompletion)
    (hg : s.path_ghost = some g) (hcur : s.cursor ≤ s.value.length)
    (hmis : g.input_snapshot ≠ s.value ∨ g.cursor_snapshot ≠ s.cursor) :
    accept_path_ghost fs s = (false, { s with path_ghost := none }) := by
  unfold accept_path_ghost
  rw [hg]
  dsimp only
  have hmin : min s.cursor s.value.length = s.cursor := min_eq_left hcur
  rw [hmin, if_pos hmis]

/-- C2 witness: a ghost made stale by one more typed character is refused
and the state keeps its value and cursor. -/
theorem accept_ghost_stale_witness :
    accept_path_ghost { home := none, read_dir := fun _ => none }
      { value := "ab".toList, cursor := 2,
        path_ghost := some { input_snapshot := "a".toList, cursor_snapshot := 1,
                             ghost_text := "x".toList, candidates := ["ax".toList] },
        error_message := none, path_invalid_flash_until := none } =
      (false,
        { value := "ab".toList, cursor := 2, path_ghost := none,
          error_message := none, path_invalid_flash_until := none }) :=
  accept_ghost_stale _ _ _ rfl (by decide) (by decide)

/-- C3: when the snapshot matches the live state, acceptance appends the
ghost text, moves the cursor to the new end (character index), clears the
error message and the invalid-path flash, immediately recomputes the
ghost, and reports success. -/
theorem accept_ghost_fresh (fs : Fs) (s : DialogState) (g : PathGhostCompletion)
    (hg : s.path_ghost = some g) (hcur : s.cursor ≤ s.value.length)
    (hv : g.input_snapshot = s.value) (hc : g.cursor_snapshot = s.cursor) :
    accept_path_ghost fs s =
      (true,
        { value := s.value ++ g.ghost_text
          cursor := (s.value ++ g.ghost_text).length
          path_ghost :=
            compute_path_ghost fs (s.value ++ g.ghost_text) ((s.value ++ g.ghost_text).length)
          error_message := none
          path_invalid_flash_until := none }) := by
  unfold accept_path_ghost
  rw [hg]
  dsimp only
  have hmin : min s.cursor s.value.length = s.cursor := min_eq_left hcur
  rw [hmin, if_neg (by push_neg; exact ⟨hv, hc⟩)]
  unfold set_path_value_with_cursor recompute_path_ghost
  simp only [min_self]

/-- C3 witness: accepting a fresh ghost on a concrete state appends the
text, puts the cursor at the new end, clears the indicators and
recomputes. -/
theorem accept_ghost_fresh_witness :
    accept_path_ghost { home := none, read_dir := fun _ => none }
      { value := "a".toList, cursor := 1,
        path_ghost := some { input_snapshot := "a".toList, cursor_snapshot := 1,
                             ghost_text := "b/".toList, candidates := ["ab".toList] },
        error_message := some "e".toList, path_invalid_flash_until := some 7 } =
      (true,
        { value := "ab/".toList, cursor := 3,
          path_ghost :=
            compute_path_ghost { home := none, read_dir := fun _ => none } "ab/".toList 3,
          error_message := none, path_invalid_flash_until := none }) :=
  by
  have h := accept_ghost_fresh { home := none, read_dir := fun _ => none }
    { value := "a".toList, cursor := 1,
      path_ghost := some { input_snapshot := "a".toList, cursor_snapshot := 1,
                           ghost_text := "b/".toList, candidates := ["ab".toList] },
      error_message := some "e".toList, path_invalid_flash_until := some 7 }
    { input_snapshot := "a".toList, cursor_snapshot := 1,
      ghost_text := "b/".toList, candidates := ["ab".toList] }
    rfl (by decide) (by decide) (by decide)
  exact h

theorem spec_trim_trailing_reverse (r : Str) :
    spec_trim_trailing r.reverse = (r.dropWhile (fun c => c = '/')).reverse := by
  induction r with
  | nil =>
    rw [spec_trim_trailing]
    simp
  | cons c t ih =>
    have hrev : (c :: t).reverse = t.reverse ++ [c] := by simp
    rw [hrev, spec_trim_trailing, List.getLast?_concat]
    by_cases hc : c = '/'
    · subst hc
      rw [if_pos rfl, List.dropLast_concat, ih]
      simp [List.dropWhile]
    · have hne : ¬ (some c = some '/') := by
        simp only [Option.some.injEq]
        exact hc
      rw [if_neg hne]
      have : (c :: t).dropWhile (fun x => x = '/') = c :: t := by
        simp [List.dropWhile, hc]
      rw [this, hrev]

theorem spec_trim_trailing_eq (s : Str) : spec_trim_trailing s = trim_end_slashes s := by
  have h := spec_trim_trailing_reverse s.reverse
  rw [List.reverse_reverse] at h
  rw [h, trim_end_slashes]

/-- C4 (amended): base-directory resolution follows the spec's rule chain
in order, with rule 2 trimming **all** trailing `/` characters (not just
one): empty prefix → `.`; all-slash prefix → `/`; `~` → home (or nothing);
`~/rest` → home joined with `rest`; anything else is taken literally. -/
theorem base_resolution_follows_amended_rules (home : Option Str) (p : Str) :
    path_completion_base home p = spec_base_resolve home p := by
  unfold path_completion_base spec_base_resolve
  rw [spec_trim_trailing_eq]
  by_cases hp : p = []
  · rw [if_pos hp, if_pos hp]
  · rw [if_neg hp, if_neg hp]
    dsimp only
    by_cases h1 : trim_end_slashes p = []
    · rw [if_pos h1, if_pos h1]
    · rw [if_neg h1, if_neg h1]
      by_cases h2 : trim_end_slashes p = ['~']
      · rw [if_pos h2, if_pos h2]
      · rw [if_neg h2, if_neg h2]
        unfold stripPfx
        by_cases h3 : isPfxOf ['~', '/'] (trim_end_slashes p) = true
        · rw [if_pos h3, if_pos h3]
          rfl
        · rw [if_neg h3, if_neg h3]

/-- C4 counterexample: for the typed prefix `~///` (with a known home
directory `/home/user`), the claim's literal rules — trim ONE trailing
`/`, then treat `~//` as `~/` plus remainder `/`, joined onto home — yield
the filesystem root, while the code (which trims ALL trailing slashes)
yields the home directory; the two results are not even equivalent as
paths. -/
theorem base_resolution_trim_one_counterexample :
    path_completion_base (some "/home/user".toList) "~///".toList =
      some "/home/user".toList ∧
    claimC4_base (some "/home/user".toList) "~///".toList = some "/".toList ∧
    (some "/home/user".toList : Option Str) ≠ some "/".toList ∧
    path_equiv "/home/user".toList "/".toList = false := by
  refine ⟨?_, by decide, by decide, by decide⟩
  decide
